import Mathlib

/-!
Verification of the interface-inspector: a tool that reports every record
(struct) type whose pointer method set structurally satisfies a named
contract (interface) type.  The data model and the satisfaction checker
follow the specification's algorithm (the engine invoked by the reporter
is library code); the lookup, reporting and aggregation phases are
embedded from the repository's own sources.
-/

namespace InterfaceInspector

/-- MethodSignature from the data model: a method name plus the ordered
parameter-type and result-type name sequences.  Two signatures are equal
iff all three components are equal. -/
structure MethodSignature where
  name : String
  parameterTypes : List String
  resultTypes : List String
deriving DecidableEq

/-- Receiver kind of a bound method: value receiver or pointer receiver. -/
inductive ReceiverKind where
  | Value : ReceiverKind
  | Pointer : ReceiverKind
deriving DecidableEq

/-- BoundMethod: a method declared directly on a record type, with its
receiver kind. -/
structure BoundMethod where
  signature : MethodSignature
  receiverKind : ReceiverKind
deriving DecidableEq

/-- Field of a record type: name, declared type name, and whether the
field is embedded (anonymous). -/
structure Field where
  name : String
  declaredType : String
  isEmbedded : Bool
deriving DecidableEq

/-- RecordType: a named concrete type with fields and the bound methods
declared directly on it. -/
structure RecordType where
  name : String
  fields : List Field
  methods : List BoundMethod
deriving DecidableEq

/-- ContractType: the ordered list of method signatures a contract
(interface) requires. -/
structure ContractType where
  signatures : List MethodSignature
deriving DecidableEq

/-- Type-graph lookup: the first record declaration carrying the given
qualified name (the graph is write-once per key, so the first entry is
the entry). -/
def lookupRecord (graph : List RecordType) (tyName : String) : Option RecordType :=
  graph.find? (fun r => decide (r.name = tyName))

/-- Modelled from the spec: merging promoted methods into an accumulated
effective set.  A method already present under the same name at a
shallower level shadows the promoted one — first-found-wins, never an
error (spec section 4.3 step 1).  The engine that realises this in the
repository is go/types' method-set computation behind types.Implements,
which is library code not among the repository's sources. -/
def mergeMethods (acc more : List BoundMethod) : List BoundMethod :=
  acc ++ more.filter (fun m => !(acc.any (fun a => decide (a.signature.name = m.signature.name))))

/-- Modelled from the spec: process a record's fields in declaration
order, promoting the effective method set of each embedded field's named
record type (resolved via the graph), with the cycle guard that a record
name already on the current visited path contributes no further methods
(spec section 4.3 steps 1 and 4). -/
def promoteFields (graph : List RecordType)
    (eff : List String → RecordType → List BoundMethod)
    (visited : List String) : List Field → List BoundMethod → List BoundMethod
  | [], acc => acc
  | f :: rest, acc =>
    match f.isEmbedded, lookupRecord graph f.declaredType with
    | true, some r =>
      if r.name ∈ visited then
        promoteFields graph eff visited rest acc
      else
        promoteFields graph eff visited rest (mergeMethods acc (eff (r.name :: visited) r))
    | true, none => promoteFields graph eff visited rest acc
    | false, _ => promoteFields graph eff visited rest acc

/-- Modelled from the spec: the effective-method-set recursion, written
with an explicit recursion-depth bound (fuel).  Starting from the
record's own bound methods, embedded fields are processed in declaration
order; the visited path realises the cycle guard of spec section 4.3
step 4.  Fuel-independence above the graph size is proved below, so the
bound never truncates the traversal. -/
def effMethodsFuel (graph : List RecordType) : Nat → List String → RecordType → List BoundMethod
  | 0, _, record => record.methods
  | fuel + 1, visited, record =>
    promoteFields graph (effMethodsFuel graph fuel) visited record.fields record.methods

/-- Number of graph entries whose names are not yet on the visited path:
an upper bound on the remaining recursion depth of the traversal. -/
def unexplored (graph : List RecordType) (visited : List String) : Nat :=
  ((graph.map (fun r => r.name)).filter (fun n => decide (¬ n ∈ visited))).length

/-- Modelled from the spec: the effective method set of a record — its
own bound methods unioned with methods promoted from embedded fields,
transitively, with shadowing (spec section 4.3 step 1).  The fuel
graph.length + 1 is sufficient by the stability theorem below. -/
def effectiveMethodSet (graph : List RecordType) (record : RecordType) : List BoundMethod :=
  effMethodsFuel graph (graph.length + 1) [record.name] record

/-- Modelled from the spec: satisfies(contract, record, graph).  The
query always evaluates against the pointer method set, i.e. every bound
method counts regardless of receiver kind (spec section 4.3 step 2,
mirroring getStrctsImplementingIface wrapping the candidate in
types.NewPointer); each required signature must have an exactly equal
match (spec section 4.3 step 3). -/
def satisfies (contract : ContractType) (record : RecordType) (graph : List RecordType) : Bool :=
  contract.signatures.all (fun sig =>
    (effectiveMethodSet graph record).any (fun m => decide (m.signature = sig)))

/-- Membership in the graph of a successful lookup result. -/
theorem lookupRecord_mem {graph : List RecordType} {n : String} {r : RecordType}
    (h : lookupRecord graph n = some r) : r ∈ graph :=
  List.mem_of_find?_eq_some h

/-- Processing fields is insensitive to the exact visited list and the
recursive effective-set function, as long as both agree on the graph
records that may actually be reached. -/
theorem promoteFields_congr {graph : List RecordType}
    {e₁ e₂ : List String → RecordType → List BoundMethod} {v₁ v₂ : List String}
    (hv : ∀ r ∈ graph, (r.name ∈ v₁ ↔ r.name ∈ v₂))
    (he : ∀ r ∈ graph, ¬ r.name ∈ v₁ → e₁ (r.name :: v₁) r = e₂ (r.name :: v₂) r)
    (fields : List Field) (acc : List BoundMethod) :
    promoteFields graph e₁ v₁ fields acc = promoteFields graph e₂ v₂ fields acc := by
  induction fields generalizing acc with
  | nil => rfl
  | cons f rest ih =>
    cases hemb : f.isEmbedded with
    | false => simp only [promoteFields, hemb]; exact ih acc
    | true =>
      cases hlook : lookupRecord graph f.declaredType with
      | none => simp only [promoteFields, hemb, hlook]; exact ih acc
      | some r =>
        have hrg : r ∈ graph := lookupRecord_mem hlook
        simp only [promoteFields, hemb, hlook]
        by_cases hvis : r.name ∈ v₁
        · rw [if_pos hvis, if_pos ((hv r hrg).mp hvis)]
          exact ih acc
        · rw [if_neg hvis, if_neg (fun hc => hvis ((hv r hrg).mpr hc)),
            he r hrg hvis]
          exact ih _

/-- When every graph record is already on the visited path, no field can
promote anything. -/
theorem promoteFields_visited_all {graph : List RecordType}
    {e : List String → RecordType → List BoundMethod} {visited : List String}
    (h : ∀ r ∈ graph, r.name ∈ visited)
    (fields : List Field) (acc : List BoundMethod) :
    promoteFields graph e visited fields acc = acc := by
  induction fields generalizing acc with
  | nil => rfl
  | cons f rest ih =>
    cases hemb : f.isEmbedded with
    | false => simp only [promoteFields, hemb]; exact ih acc
    | true =>
      cases hlook : lookupRecord graph f.declaredType with
      | none => simp only [promoteFields, hemb, hlook]; exact ih acc
      | some r =>
        simp only [promoteFields, hemb, hlook, if_pos (h r (lookupRecord_mem hlook))]
        exact ih acc

/-- Filtering with a stronger predicate yields a list at most as long. -/
theorem length_filter_mono {α : Type} {p q : α → Bool}
    (h : ∀ a, p a = true → q a = true) (l : List α) :
    (l.filter p).length ≤ (l.filter q).length := by
  induction l with
  | nil => exact Nat.le_refl 0
  | cons a t ih =>
    rw [List.filter_cons, List.filter_cons]
    cases hp : p a with
    | true => rw [h a hp]; simpa using Nat.succ_le_succ ih
    | false =>
      cases hq : q a with
      | true => simpa using Nat.le_succ_of_le ih
      | false => simpa using ih

/-- Extending the visited path by a graph name not yet on it strictly
shrinks the count of unexplored graph entries. -/
theorem unexplored_cons_lt {graph : List RecordType} {visited : List String}
    {r : RecordType} (hr : r ∈ graph) (hnv : ¬ r.name ∈ visited) :
    unexplored graph (r.name :: visited) < unexplored graph visited := by
  have hx : r.name ∈ graph.map (fun s => s.name) := List.mem_map_of_mem _ hr
  unfold unexplored
  revert hx
  generalize graph.map (fun s => s.name) = l
  intro hx
  induction l with
  | nil => cases hx
  | cons a t ih =>
    rw [List.filter_cons, List.filter_cons]
    by_cases hax : a = r.name
    · have h1 : decide (¬ a ∈ r.name :: visited) = false := by simp [hax]
      have h2 : decide (¬ a ∈ visited) = true := by
        simp only [decide_eq_true_eq]
        rw [hax]; exact hnv
      rw [h1, h2]
      have hmono : (t.filter (fun n => decide (¬ n ∈ r.name :: visited))).length ≤
          (t.filter (fun n => decide (¬ n ∈ visited))).length := by
        refine length_filter_mono ?_ t
        intro b hb
        simp only [decide_eq_true_eq] at hb ⊢
        exact fun hbv => hb (List.mem_cons_of_mem _ hbv)
      simpa using Nat.lt_succ_of_le hmono
    · have hx' : r.name ∈ t := by
        cases hx with
        | head => exact absurd rfl hax
        | tail _ hmem => exact hmem
      by_cases hav : a ∈ visited
      · have h1 : decide (¬ a ∈ r.name :: visited) = false := by
          simp [List.mem_cons_of_mem _ hav]
        have h2 : decide (¬ a ∈ visited) = false := by simpa using hav
        rw [h1, h2]
        simpa using ih hx'
      · have h1 : decide (¬ a ∈ r.name :: visited) = true := by
          simp only [decide_eq_true_eq, List.mem_cons]
          rintro (hc | hc)
          · exact hax hc
          · exact hav hc
        have h2 : decide (¬ a ∈ visited) = true := by simpa using hav
        rw [h1, h2]
        simpa using Nat.succ_lt_succ (ih hx')

/-- One extra unit of fuel changes nothing once the fuel covers the
unexplored part of the graph. -/
theorem effMethodsFuel_step (graph : List RecordType) :
    ∀ (n : Nat) (visited : List String) (record : RecordType),
      unexplored graph visited ≤ n →
      effMethodsFuel graph n visited record = effMethodsFuel graph (n + 1) visited record := by
  intro n
  induction n with
  | zero =>
    intro visited record h
    have hall : ∀ r ∈ graph, r.name ∈ visited := by
      intro r hr
      by_contra hnv
      have hlt := unexplored_cons_lt hr hnv
      omega
    simp only [effMethodsFuel]
    exact (promoteFields_visited_all hall record.fields record.methods).symm
  | succ n ih =>
    intro visited record h
    simp only [effMethodsFuel]
    refine promoteFields_congr (fun r _ => Iff.rfl) ?_ record.fields record.methods
    intro r hr hnv
    refine ih (r.name :: visited) r ?_
    have hlt := unexplored_cons_lt hr hnv
    omega

/-- Any sufficient amount of fuel computes the same effective set as the
exact unexplored-count bound: the traversal stabilises. -/
theorem effMethodsFuel_stable (graph : List RecordType) (visited : List String)
    (record : RecordType) :
    ∀ fuel : Nat, unexplored graph visited ≤ fuel →
      effMethodsFuel graph fuel visited record =
        effMethodsFuel graph (unexplored graph visited) visited record := by
  intro fuel
  induction fuel with
  | zero => intro h; rw [Nat.le_zero.mp h]
  | succ fuel ih =>
    intro h
    by_cases heq : unexplored graph visited = fuel + 1
    · rw [heq]
    · have hle : unexplored graph visited ≤ fuel := by omega
      rw [← effMethodsFuel_step graph fuel visited record hle]
      exact ih hle

/-- The unexplored count is bounded by the graph size. -/
theorem unexplored_le_length (graph : List RecordType) (visited : List String) :
    unexplored graph visited ≤ graph.length := by
  have h1 : unexplored graph visited ≤ (graph.map (fun r => r.name)).length :=
    List.length_filter_le _ _
  simpa using h1

/-- C5: a contract with zero required signatures is satisfied by every
record type over every graph, including a record with zero fields and
zero bound methods. -/
theorem empty_contract_satisfied (graph : List RecordType) (record : RecordType) :
    satisfies ⟨[]⟩ record graph = true := rfl

/-- C6: the satisfaction traversal terminates on every graph, including
cyclic embedding graphs: any recursion-depth budget of at least
graph.length + 1 computes exactly the effective method set, so the
visited-path cycle guard stabilises the recursion at a depth bounded by
the graph size instead of looping, and a revisited record contributes no
further methods. -/
theorem satisfaction_traversal_terminates (graph : List RecordType)
    (record : RecordType) (fuel : Nat) (h : graph.length + 1 ≤ fuel) :
    effMethodsFuel graph fuel [record.name] record = effectiveMethodSet graph record := by
  have hu : unexplored graph [record.name] ≤ graph.length + 1 :=
    Nat.le_trans (unexplored_le_length _ _) (Nat.le_succ _)
  rw [effectiveMethodSet, effMethodsFuel_stable graph _ record fuel (Nat.le_trans hu h),
    effMethodsFuel_stable graph _ record (graph.length + 1) hu]

/-- Self-embedding record used to exercise the cycle guard. -/
def cyclicRecord : RecordType :=
  ⟨"A", [⟨"", "A", true⟩], [⟨⟨"M", [], []⟩, ReceiverKind.Value⟩]⟩

/-- Graph consisting of the single self-embedding record. -/
def cyclicGraph : List RecordType := [cyclicRecord]

/-- Witness for C6: on the concrete self-embedding graph, the traversal
with a generous fuel budget agrees with the effective method set. -/
theorem satisfaction_traversal_terminates_witness :
    cyclicGraph.length + 1 ≤ 9 ∧
      effMethodsFuel cyclicGraph 9 ["A"] cyclicRecord = effectiveMethodSet cyclicGraph cyclicRecord :=
  ⟨by decide, satisfaction_traversal_terminates cyclicGraph cyclicRecord 9 (by decide)⟩

/-- Unfolding of the satisfaction check: it holds exactly when every
required signature has an exactly equal counterpart in the effective
method set. -/
theorem satisfies_iff (contract : ContractType) (record : RecordType)
    (graph : List RecordType) :
    satisfies contract record graph = true ↔
      ∀ sig ∈ contract.signatures,
        ∃ m ∈ effectiveMethodSet graph record, m.signature = sig := by
  simp [satisfies, List.all_eq_true, List.any_eq_true]

/-- Rewrite every bound method of a record to carry the given receiver
kind, leaving its signature untouched. -/
def setKind (k : ReceiverKind) (m : BoundMethod) : BoundMethod :=
  ⟨m.signature, k⟩

/-- Rewrite the receiver kind of every method declared on a record. -/
def recordSetKind (k : ReceiverKind) (r : RecordType) : RecordType :=
  ⟨r.name, r.fields, r.methods.map (setKind k)⟩

/-- Rewrite the receiver kind of every method in the whole graph. -/
def graphSetKind (k : ReceiverKind) (graph : List RecordType) : List RecordType :=
  graph.map (recordSetKind k)

/-- Lookup commutes with rewriting receiver kinds, since names are
untouched. -/
theorem lookupRecord_setKind (k : ReceiverKind) (graph : List RecordType) (n : String) :
    lookupRecord (graphSetKind k graph) n = (lookupRecord graph n).map (recordSetKind k) := by
  induction graph with
  | nil => rfl
  | cons r t ih =>
    simp only [graphSetKind, List.map_cons, lookupRecord, List.find?] at *
    by_cases hn : r.name = n
    · simp [recordSetKind, hn]
    · have h1 : decide ((recordSetKind k r).name = n) = false := by
        simp [recordSetKind, hn]
      have h2 : decide (r.name = n) = false := by simp [hn]
      rw [h1, h2]
      exact ih

/-- Filtering a mapped list filters the originals. -/
theorem filter_of_map {α β : Type} (f : α → β) (p : β → Bool) (l : List α) :
    (l.map f).filter p = (l.filter (fun a => p (f a))).map f := by
  induction l with
  | nil => rfl
  | cons a t ih =>
    simp only [List.map_cons, List.filter_cons]
    cases hp : p (f a) with
    | true => simp [hp, ih]
    | false => simp [hp, ih]

/-- Merging commutes with rewriting receiver kinds: shadowing is decided
by names only. -/
theorem mergeMethods_setKind (k : ReceiverKind) (acc more : List BoundMethod) :
    mergeMethods (acc.map (setKind k)) (more.map (setKind k)) =
      (mergeMethods acc more).map (setKind k) := by
  have hpred : ∀ a ∈ more,
      (!(acc.map (setKind k)).any
        (fun b => decide (b.signature.name = (setKind k a).signature.name))) =
      (!acc.any (fun b => decide (b.signature.name = a.signature.name))) := by
    intro a _
    simp only [List.any_map]
    rfl
  simp only [mergeMethods, List.map_append, filter_of_map,
    List.filter_congr hpred]

/-- Field processing commutes with rewriting receiver kinds, given that
the recursive effective-set functions do. -/
theorem promoteFields_setKind (k : ReceiverKind) (graph : List RecordType)
    {e e' : List String → RecordType → List BoundMethod}
    (he : ∀ (v : List String) (r : RecordType),
      e' v (recordSetKind k r) = (e v r).map (setKind k))
    (visited : List String) (fields : List Field) (acc : List BoundMethod) :
    promoteFields (graphSetKind k graph) e' visited fields (acc.map (setKind k)) =
      (promoteFields graph e visited fields acc).map (setKind k) := by
  induction fields generalizing acc with
  | nil => rfl
  | cons f rest ih =>
    cases hemb : f.isEmbedded with
    | false => simp only [promoteFields, hemb]; exact ih acc
    | true =>
      cases hlook : lookupRecord graph f.declaredType with
      | none =>
        simp only [promoteFields, hemb, lookupRecord_setKind, hlook, Option.map_none']
        exact ih acc
      | some r =>
        simp only [promoteFields, hemb, lookupRecord_setKind, hlook, Option.map_some']
        have hname : (recordSetKind k r).name = r.name := rfl
        rw [hname]
        by_cases hvis : r.name ∈ visited
        · rw [if_pos hvis, if_pos hvis]
          exact ih acc
        · rw [if_neg hvis, if_neg hvis, he (r.name :: visited) r,
            mergeMethods_setKind]
          exact ih _

/-- The effective-set recursion commutes with rewriting receiver kinds. -/
theorem effMethodsFuel_setKind (k : ReceiverKind) (graph : List RecordType) :
    ∀ (fuel : Nat) (visited : List String) (record : RecordType),
      effMethodsFuel (graphSetKind k graph) fuel visited (recordSetKind k record) =
        (effMethodsFuel graph fuel visited record).map (setKind k) := by
  intro fuel
  induction fuel with
  | zero => intro visited record; rfl
  | succ fuel ih =>
    intro visited record
    simp only [effMethodsFuel]
    have hfields : (recordSetKind k record).fields = record.fields := rfl
    have hmeth : (recordSetKind k record).methods = record.methods.map (setKind k) := rfl
    rw [hfields, hmeth]
    exact promoteFields_setKind k graph (fun v r => ih v r) visited record.fields record.methods

/-- The effective method set commutes with rewriting receiver kinds. -/
theorem effectiveMethodSet_setKind (k : ReceiverKind) (graph : List RecordType)
    (record : RecordType) :
    effectiveMethodSet (graphSetKind k graph) (recordSetKind k record) =
      (effectiveMethodSet graph record).map (setKind k) := by
  have hlen : (graphSetKind k graph).length = graph.length := List.length_map _ _
  have hname : (recordSetKind k record).name = record.name := rfl
  rw [effectiveMethodSet, effectiveMethodSet, hlen, hname]
  exact effMethodsFuel_setKind k graph (graph.length + 1) [record.name] record

/-- C1: satisfaction is evaluated against the pointer method set — it
holds iff every required signature of the contract has an exactly equal
match in the effective (pointer) method set of the record, and the
outcome is invariant under rewriting every bound method's receiver kind
in the record and throughout the graph, so value-receiver and
pointer-receiver methods count alike. -/
theorem satisfies_pointer_method_set (contract : ContractType) (record : RecordType)
    (graph : List RecordType) :
    (satisfies contract record graph = true ↔
      ∀ sig ∈ contract.signatures,
        ∃ m ∈ effectiveMethodSet graph record, m.signature = sig) ∧
    (∀ k : ReceiverKind,
      satisfies contract (recordSetKind k record) (graphSetKind k graph) =
        satisfies contract record graph) := by
  refine ⟨satisfies_iff contract record graph, ?_⟩
  intro k
  simp only [satisfies, effectiveMethodSet_setKind, List.any_map]
  rfl

/-- C2: exact signature matching — satisfaction forces, for every
required signature, an effective method agreeing on name, the full
ordered parameter-type sequence and the full ordered result-type
sequence; and if some required signature is matched by name only (every
same-name candidate differs in parameters or results), the whole check
fails. -/
theorem satisfies_exact_match (contract : ContractType) (record : RecordType)
    (graph : List RecordType) :
    (satisfies contract record graph = true →
      ∀ sig ∈ contract.signatures,
        ∃ m ∈ effectiveMethodSet graph record,
          m.signature.name = sig.name ∧
          m.signature.parameterTypes = sig.parameterTypes ∧
          m.signature.resultTypes = sig.resultTypes) ∧
    (∀ sig ∈ contract.signatures,
      (∀ m ∈ effectiveMethodSet graph record, m.signature.name = sig.name →
        m.signature.parameterTypes ≠ sig.parameterTypes ∨
        m.signature.resultTypes ≠ sig.resultTypes) →
      satisfies contract record graph = false) := by
  constructor
  · intro hsat sig hsig
    obtain ⟨m, hm, hms⟩ := (satisfies_iff contract record graph).mp hsat sig hsig
    exact ⟨m, hm, by rw [hms], by rw [hms], by rw [hms]⟩
  · intro sig hsig hnone
    by_contra hne
    have hsat : satisfies contract record graph = true := by
      cases h : satisfies contract record graph with
      | true => rfl
      | false => exact absurd h hne
    obtain ⟨m, hm, hms⟩ := (satisfies_iff contract record graph).mp hsat sig hsig
    rcases hnone m hm (by rw [hms]) with hbad | hbad
    · exact hbad (by rw [hms])
    · exact hbad (by rw [hms])

/-- Required signature of the Fetcher contract from the repository's
usage example. -/
def sigFetch : MethodSignature := ⟨"Fetch", ["string"], ["bytes", "error"]⟩

/-- Signature with the right name but the wrong result-type sequence. -/
def sigFetchCache : MethodSignature := ⟨"Fetch", ["string"], ["string"]⟩

/-- The Fetcher contract. -/
def fetcherContract : ContractType := ⟨[sigFetch]⟩

/-- Record with a same-name method whose result types differ. -/
def cacheFetcher : RecordType := ⟨"cacheFetcher", [], [⟨sigFetchCache, ReceiverKind.Value⟩]⟩

/-- Witness for C2: on the concrete cacheFetcher scenario, a same-name
candidate with a different result-type sequence makes the check fail. -/
theorem satisfies_exact_match_witness :
    satisfies fetcherContract cacheFetcher [] = false :=
  (satisfies_exact_match fetcherContract cacheFetcher []).2 sigFetch (by decide)
    (by decide)

/-- Every member of the processed field accumulation either was already
accumulated or carries a name fresh with respect to the accumulator:
promotion never overrides an accumulated name. -/
theorem promoteFields_mem {graph : List RecordType}
    {e : List String → RecordType → List BoundMethod} {visited : List String} :
    ∀ (fields : List Field) (acc : List BoundMethod) (m : BoundMethod),
      m ∈ promoteFields graph e visited fields acc →
      m ∈ acc ∨ ∀ a ∈ acc, m.signature.name ≠ a.signature.name := by
  intro fields
  induction fields with
  | nil => intro acc m hm; exact Or.inl hm
  | cons f rest ih =>
    intro acc m hm
    have hstep : ∀ more : List BoundMethod,
        m ∈ promoteFields graph e visited rest (mergeMethods acc more) →
        m ∈ acc ∨ ∀ a ∈ acc, m.signature.name ≠ a.signature.name := by
      intro more hmm
      rcases ih (mergeMethods acc more) m hmm with hin | hfresh
      · rcases List.mem_append.mp hin with hacc | hflt
        · exact Or.inl hacc
        · right
          have hcond := (List.mem_filter.mp hflt).2
          have hany : acc.any (fun a => decide (a.signature.name = m.signature.name)) = false := by
            cases h : acc.any (fun a => decide (a.signature.name = m.signature.name)) with
            | false => rfl
            | true => rw [h] at hcond; exact absurd hcond (by decide)
          intro a ha
          have := List.any_eq_false.mp hany a ha
          simp only [decide_eq_true_eq] at this
          exact fun hc => this hc.symm
      · right
        intro a ha
        exact hfresh a (List.mem_append_left _ ha)
    cases hemb : f.isEmbedded with
    | false =>
      simp only [promoteFields, hemb] at hm
      exact ih acc m hm
    | true =>
      cases hlook : lookupRecord graph f.declaredType with
      | none =>
        simp only [promoteFields, hemb, hlook] at hm
        exact ih acc m hm
      | some r =>
        simp only [promoteFields, hemb, hlook] at hm
        by_cases hvis : r.name ∈ visited
        · rw [if_pos hvis] at hm
          exact ih acc m hm
        · rw [if_neg hvis] at hm
          exact hstep _ hm

/-- C3: shadowing — whenever a record S itself declares a method under
some name, every method of that name in S's effective method set is one
of S's own declarations, so a same-name method promoted from an embedded
record (with any signature) never survives into the effective set; the
name collision yields no error, the check simply uses S's declaration. -/
theorem own_method_shadows_promoted {graph : List RecordType} {S : RecordType}
    {m m' : BoundMethod} (hm : m ∈ effectiveMethodSet graph S)
    (hm' : m' ∈ S.methods) (hname : m.signature.name = m'.signature.name) :
    m ∈ S.methods := by
  have hm2 : m ∈ promoteFields graph (effMethodsFuel graph graph.length)
      [S.name] S.fields S.methods := hm
  rcases promoteFields_mem S.fields S.methods m hm2 with hown | hfresh
  · exact hown
  · exact absurd hname (hfresh m' hm')

/-- Promoted method signature used in the shadowing scenario. -/
def sigOne : MethodSignature := ⟨"M", [], ["A"]⟩

/-- Shadowing method signature with the same name and a different result
type. -/
def sigTwo : MethodSignature := ⟨"M", [], ["B"]⟩

/-- Embedded record providing method M with signature sigOne. -/
def innerRecord : RecordType := ⟨"Inner", [], [⟨sigOne, ReceiverKind.Value⟩]⟩

/-- Record embedding innerRecord while itself declaring M with the
different signature sigTwo. -/
def outerRecord : RecordType :=
  ⟨"Outer", [⟨"", "Inner", true⟩], [⟨sigTwo, ReceiverKind.Pointer⟩]⟩

/-- Graph for the shadowing scenario. -/
def shadowGraph : List RecordType := [innerRecord, outerRecord]

/-- Witness for C3: in the concrete shadowing scenario the effective
method named M of the outer record is its own declaration. -/
theorem own_method_shadows_promoted_witness :
    (⟨sigTwo, ReceiverKind.Pointer⟩ : BoundMethod) ∈ outerRecord.methods :=
  @own_method_shadows_promoted shadowGraph outerRecord
    ⟨sigTwo, ReceiverKind.Pointer⟩ ⟨sigTwo, ReceiverKind.Pointer⟩
    (by decide) (by decide) rfl

/-- The effective-set recursion only depends on which graph records are
on the visited path. -/
theorem effMethodsFuel_visited_congr (graph : List RecordType) :
    ∀ (fuel : Nat) (v₁ v₂ : List String) (record : RecordType),
      (∀ r ∈ graph, (r.name ∈ v₁ ↔ r.name ∈ v₂)) →
      effMethodsFuel graph fuel v₁ record = effMethodsFuel graph fuel v₂ record := by
  intro fuel
  induction fuel with
  | zero => intro v₁ v₂ record _; rfl
  | succ fuel ih =>
    intro v₁ v₂ record hv
    simp only [effMethodsFuel]
    refine promoteFields_congr hv ?_ record.fields record.methods
    intro r hr _
    refine ih (r.name :: v₁) (r.name :: v₂) r ?_
    intro r' hr'
    simp only [List.mem_cons]
    exact or_congr Iff.rfl (hv r' hr')

/-- Processing a concatenation of field lists processes them in
sequence. -/
theorem promoteFields_append (graph : List RecordType)
    (e : List String → RecordType → List BoundMethod) (visited : List String) :
    ∀ (xs ys : List Field) (acc : List BoundMethod),
      promoteFields graph e visited (xs ++ ys) acc =
        promoteFields graph e visited ys (promoteFields graph e visited xs acc) := by
  intro xs
  induction xs with
  | nil => intro ys acc; rfl
  | cons f rest ih =>
    intro ys acc
    cases hemb : f.isEmbedded with
    | false => simp only [List.cons_append, promoteFields, hemb]; exact ih ys acc
    | true =>
      cases hlook : lookupRecord graph f.declaredType with
      | none => simp only [List.cons_append, promoteFields, hemb, hlook]; exact ih ys acc
      | some r =>
        simp only [List.cons_append, promoteFields, hemb, hlook]
        by_cases hvis : r.name ∈ visited
        · rw [if_pos hvis, if_pos hvis]; exact ih ys acc
        · rw [if_neg hvis, if_neg hvis]; exact ih ys _

/-- Accumulated methods survive the processing of further fields. -/
theorem mem_promoteFields_of_mem_acc (graph : List RecordType)
    (e : List String → RecordType → List BoundMethod) (visited : List String) :
    ∀ (fields : List Field) (acc : List BoundMethod) (m : BoundMethod),
      m ∈ acc → m ∈ promoteFields graph e visited fields acc := by
  intro fields
  induction fields with
  | nil => intro acc m hm; exact hm
  | cons f rest ih =>
    intro acc m hm
    cases hemb : f.isEmbedded with
    | false => simp only [promoteFields, hemb]; exact ih acc m hm
    | true =>
      cases hlook : lookupRecord graph f.declaredType with
      | none => simp only [promoteFields, hemb, hlook]; exact ih acc m hm
      | some r =>
        simp only [promoteFields, hemb, hlook]
        by_cases hvis : r.name ∈ visited
        · rw [if_pos hvis]; exact ih acc m hm
        · rw [if_neg hvis]
          exact ih _ m (List.mem_append_left _ hm)

/-- Methods a record's traversal has accumulated after processing only
the given prefix of its fields: its own bound methods plus promotions
from the prefix, in declaration order. -/
def effBefore (graph : List RecordType) (S : RecordType) (pre : List Field) :
    List BoundMethod :=
  promoteFields graph (effMethodsFuel graph graph.length) [S.name] pre S.methods

/-- C4 (amended): promotion monotonicity under non-conflicting direct
embedding — if R satisfies contract c, S embeds R directly through an
embedded field, S's own name does not occur in the graph, and nothing S
accumulated before that field (its own declared methods or methods
promoted from earlier embedded fields) shares a name with a method of
R's effective method set, then S satisfies c as well. -/
theorem promotion_monotonic {graph : List RecordType} {c : ContractType}
    {R S : RecordType} {pre post : List Field} {f : Field}
    (hfields : S.fields = pre ++ f :: post)
    (hemb : f.isEmbedded = true)
    (hlook : lookupRecord graph f.declaredType = some R)
    (hfresh : ¬ S.name ∈ graph.map (fun r => r.name))
    (hnoshadow : ∀ a ∈ effBefore graph S pre, ∀ m ∈ effectiveMethodSet graph R,
      a.signature.name ≠ m.signature.name)
    (hR : satisfies c R graph = true) :
    satisfies c S graph = true := by
  have hRname : ¬ R.name = S.name := by
    intro hc
    exact hfresh (hc ▸ List.mem_map_of_mem _ (lookupRecord_mem hlook))
  have hvisited : effMethodsFuel graph graph.length (R.name :: [S.name]) R =
      effMethodsFuel graph graph.length [R.name] R := by
    refine effMethodsFuel_visited_congr graph graph.length _ _ R ?_
    intro r' hr'
    have hr'S : ¬ r'.name = S.name := by
      intro hc
      exact hfresh (hc ▸ List.mem_map_of_mem _ hr')
    simp [hr'S]
  have hstable : effMethodsFuel graph graph.length [R.name] R =
      effectiveMethodSet graph R := by
    have hu : unexplored graph [R.name] ≤ graph.length := unexplored_le_length _ _
    rw [effectiveMethodSet,
      effMethodsFuel_stable graph [R.name] R graph.length hu,
      effMethodsFuel_stable graph [R.name] R (graph.length + 1) (Nat.le_succ_of_le hu)]
  have heffS : effectiveMethodSet graph S =
      promoteFields graph (effMethodsFuel graph graph.length) [S.name]
        (f :: post) (effBefore graph S pre) := by
    rw [effectiveMethodSet]
    simp only [effMethodsFuel]
    rw [hfields, promoteFields_append]
    rfl
  rw [satisfies_iff]
  intro sig hsig
  obtain ⟨m, hmR, hms⟩ := (satisfies_iff c R graph).mp hR sig hsig
  refine ⟨m, ?_, hms⟩
  rw [heffS]
  simp only [promoteFields, hemb, hlook]
  rw [if_neg (by simpa using hRname)]
  refine mem_promoteFields_of_mem_acc graph _ _ post _ m ?_
  rw [hvisited, hstable]
  simp only [mergeMethods]
  refine List.mem_append_right _ ?_
  refine List.mem_filter.mpr ⟨hmR, ?_⟩
  have hfalse : (effBefore graph S pre).any
      (fun a => decide (a.signature.name = m.signature.name)) = false := by
    apply List.any_eq_false.mpr
    intro a ha
    simp only [decide_eq_true_eq]
    exact hnoshadow a ha m hmR
  rw [hfalse]
  rfl

/-- Contract requiring M with result type A. -/
def contractM : ContractType := ⟨[sigOne]⟩

/-- Record whose method M has the other signature; embedded first. -/
def earlierRecord : RecordType := ⟨"Earlier", [], [⟨sigTwo, ReceiverKind.Value⟩]⟩

/-- Record satisfying contractM through its own method M. -/
def providerRecord : RecordType := ⟨"Provider", [], [⟨sigOne, ReceiverKind.Value⟩]⟩

/-- Graph holding both records of the counterexample. -/
def earlierGraph : List RecordType := [earlierRecord, providerRecord]

/-- Record embedding earlierRecord before providerRecord, declaring no
methods of its own. -/
def embedBoth : RecordType :=
  ⟨"Both", [⟨"", "Earlier", true⟩, ⟨"", "Provider", true⟩], []⟩

/-- C4 counterexample: providerRecord satisfies contractM, embedBoth
embeds providerRecord directly and declares no method at all (so no
method name of embedBoth conflicts with a method of providerRecord), yet
embedBoth does not satisfy contractM — the same-name method promoted
from the earlier-embedded field shadows providerRecord's method M. -/
theorem promotion_monotonic_counterexample :
    satisfies contractM providerRecord earlierGraph = true ∧
    embedBoth.fields = [⟨"", "Earlier", true⟩, ⟨"", "Provider", true⟩] ∧
    lookupRecord earlierGraph "Provider" = some providerRecord ∧
    embedBoth.methods = [] ∧
    satisfies contractM embedBoth earlierGraph = false := by
  decide

/-- Graph with only the provider record, for the monotonicity witness. -/
def soloGraph : List RecordType := [providerRecord]

/-- Record embedding providerRecord as its only field. -/
def soloEmbed : RecordType := ⟨"Solo", [⟨"", "Provider", true⟩], []⟩

/-- Witness for the amended C4: on a concrete graph where nothing
shadows the embedded record's methods, satisfaction is inherited. -/
theorem promotion_monotonic_witness :
    satisfies contractM soloEmbed soloGraph = true :=
  @promotion_monotonic soloGraph contractM providerRecord soloEmbed [] []
    ⟨"", "Provider", true⟩
    (by decide) (by decide) (by decide) (by decide) (by decide) (by decide)

/-- A declaration as carried on the aggregation channel: the declared
name and the source file it was extracted from (standing in for the
declaration body, which differs between files). -/
structure StructDecl where
  name : String
  srcFile : String
deriving DecidableEq

/-- The record-sink aggregation loop of main: declarations arrive in
channel order; one whose name is already in the seen map is ignored,
otherwise it is appended and its name marked seen. -/
def aggregateStructs : List StructDecl → List String → List StructDecl
  | [], _ => []
  | d :: rest, seen =>
    if d.name ∈ seen then aggregateStructs rest seen
    else d :: aggregateStructs rest (d.name :: seen)

/-- Aggregation of a complete arrival sequence, starting from the empty
seen map. -/
def aggregate (ds : List StructDecl) : List StructDecl := aggregateStructs ds []

/-- No aggregated declaration carries a name that was already seen when
aggregation started. -/
theorem aggregateStructs_not_seen :
    ∀ (ds : List StructDecl) (seen : List String) (d : StructDecl),
      d ∈ aggregateStructs ds seen → ¬ d.name ∈ seen := by
  intro ds
  induction ds with
  | nil => intro seen d h; cases h
  | cons a rest ih =>
    intro seen d h
    simp only [aggregateStructs] at h
    by_cases ha : a.name ∈ seen
    · rw [if_pos ha] at h
      exact ih seen d h
    · rw [if_neg ha] at h
      rcases List.mem_cons.mp h with hda | htail
      · rw [hda]; exact ha
      · intro hmem
        exact ih _ d htail (List.mem_cons_of_mem _ hmem)

/-- Aggregated names are pairwise distinct: at most one entry per
name. -/
theorem aggregateStructs_nodup :
    ∀ (ds : List StructDecl) (seen : List String),
      ((aggregateStructs ds seen).map (fun d => d.name)).Nodup := by
  intro ds
  induction ds with
  | nil => intro seen; simp [aggregateStructs]
  | cons a rest ih =>
    intro seen
    simp only [aggregateStructs]
    by_cases ha : a.name ∈ seen
    · rw [if_pos ha]; exact ih seen
    · rw [if_neg ha]
      simp only [List.map_cons, List.nodup_cons]
      refine ⟨?_, ih _⟩
      intro hmem
      rw [List.mem_map] at hmem
      obtain ⟨d, hd, hdn⟩ := hmem
      exact aggregateStructs_not_seen rest _ d hd (by rw [hdn]; exact List.mem_cons_self _ _)

/-- For a name not yet seen, the first aggregated declaration of that
name is the first arrival of that name. -/
theorem aggregateStructs_find :
    ∀ (ds : List StructDecl) (seen : List String) (n : String), ¬ n ∈ seen →
      (aggregateStructs ds seen).find? (fun d => decide (d.name = n)) =
        ds.find? (fun d => decide (d.name = n)) := by
  intro ds
  induction ds with
  | nil => intro seen n _; rfl
  | cons a rest ih =>
    intro seen n hn
    simp only [aggregateStructs]
    by_cases ha : a.name ∈ seen
    · rw [if_pos ha]
      have hna : decide (a.name = n) = false := by
        simp only [decide_eq_false_iff_not]
        intro he
        exact hn (he ▸ ha)
      rw [List.find?_cons_of_neg _ (by simp only [hna]; exact Bool.false_ne_true)]
      exact ih seen n hn
    · rw [if_neg ha]
      by_cases han : a.name = n
      · rw [List.find?_cons_of_pos _ (by simp [han]),
          List.find?_cons_of_pos _ (by simp [han])]
      · rw [List.find?_cons_of_neg _ (by simp [han]),
          List.find?_cons_of_neg _ (by simp [han])]
        refine ih _ n ?_
        simp only [List.mem_cons]
        rintro (hc | hc)
        · exact han hc.symm
        · exact hn hc

/-- C7 (amended): for every arrival order of the declarations, the
record sink holds exactly one entry per declared name, namely the
first-seen declaration of that name in that arrival order, and the set
of aggregated names equals the set of arriving names; which duplicate
survives is determined by the arrival order (and only by it). -/
theorem aggregate_first_seen_wins (ds : List StructDecl) :
    (((aggregate ds).map (fun d => d.name)).Nodup) ∧
    (∀ n : String, (aggregate ds).find? (fun d => decide (d.name = n)) =
      ds.find? (fun d => decide (d.name = n))) ∧
    (∀ n : String, n ∈ (aggregate ds).map (fun d => d.name) ↔
      n ∈ ds.map (fun d => d.name)) := by
  refine ⟨aggregateStructs_nodup ds [], fun n => aggregateStructs_find ds [] n (by simp), ?_⟩
  intro n
  have hfind : (aggregate ds).find? (fun d => decide (d.name = n)) =
      ds.find? (fun d => decide (d.name = n)) :=
    aggregateStructs_find ds [] n (by simp)
  constructor
  · intro hmem
    rw [List.mem_map] at hmem
    obtain ⟨d, hd, hdn⟩ := hmem
    have hsome : (aggregate ds).find? (fun d => decide (d.name = n)) ≠ none := by
      intro hnone
      have := List.find?_eq_none.mp hnone d hd
      simp [hdn] at this
    rw [hfind] at hsome
    cases hfound : ds.find? (fun d => decide (d.name = n)) with
    | none => exact absurd hfound hsome
    | some d' =>
      have hd' : d' ∈ ds := List.mem_of_find?_eq_some hfound
      have hp := List.find?_some hfound
      simp only [decide_eq_true_eq] at hp
      rw [List.mem_map]
      exact ⟨d', hd', hp⟩
  · intro hmem
    rw [List.mem_map] at hmem
    obtain ⟨d, hd, hdn⟩ := hmem
    have hsome : ds.find? (fun d => decide (d.name = n)) ≠ none := by
      intro hnone
      have := List.find?_eq_none.mp hnone d hd
      simp [hdn] at this
    rw [← hfind] at hsome
    cases hfound : (aggregate ds).find? (fun d => decide (d.name = n)) with
    | none => exact absurd hfound hsome
    | some d' =>
      have hd' : d' ∈ aggregate ds := List.mem_of_find?_eq_some hfound
      have hp := List.find?_some hfound
      simp only [decide_eq_true_eq] at hp
      rw [List.mem_map]
      exact ⟨d', hd', hp⟩

/-- Same qualified name declared in file a.go. -/
def dupFromA : StructDecl := ⟨"T", "a.go"⟩

/-- Same qualified name declared in file b.go. -/
def dupFromB : StructDecl := ⟨"T", "b.go"⟩

/-- C7 counterexample: the two concurrent arrival orders of the same two
same-name declarations are permutations of each other, yet the surviving
entry differs — which declaration survives is not deterministic across
concurrent insertion orders. -/
theorem aggregate_not_order_deterministic :
    List.Perm [dupFromA, dupFromB] [dupFromB, dupFromA] ∧
    aggregate [dupFromA, dupFromB] = [dupFromA] ∧
    aggregate [dupFromB, dupFromA] = [dupFromB] ∧
    dupFromA ≠ dupFromB := by
  refine ⟨List.Perm.swap dupFromB dupFromA [], by decide, by decide, by decide⟩

/-- Underlying type of a name found in a package scope: an interface
type, a struct type, or any other kind of type. -/
inductive UnderlyingType where
  | interfaceType : ContractType → UnderlyingType
  | structType : RecordType → UnderlyingType
  | otherType : UnderlyingType
deriving DecidableEq

/-- An entry of the resolved package's scope: a top-level name together
with the underlying type it denotes. -/
structure ScopeEntry where
  name : String
  underlying : UnderlyingType
deriving DecidableEq

/-- Result of a successful interface lookup: the interface's required
signatures and its name. -/
structure FindInterfaceResult where
  iface : ContractType
  ifaceName : String
deriving DecidableEq

/-- Model of findInterface from the point where the package is resolved:
look the requested name up in the package scope; a missing name and a
name whose underlying type is not an interface produce the identical
lookup error (the source builds the same message in both branches). -/
def findInterface (scope : List ScopeEntry) (packageName interfaceName : String) :
    Except String FindInterfaceResult :=
  match scope.find? (fun s => decide (s.name = interfaceName)) with
  | none =>
    Except.error ("no such interface \"" ++ interfaceName ++ "\" in package \"" ++
      packageName ++ "\"")
  | some s =>
    match s.underlying with
    | UnderlyingType.interfaceType c => Except.ok ⟨c, interfaceName⟩
    | UnderlyingType.structType _ =>
      Except.error ("no such interface \"" ++ interfaceName ++ "\" in package \"" ++
        packageName ++ "\"")
    | UnderlyingType.otherType =>
      Except.error ("no such interface \"" ++ interfaceName ++ "\" in package \"" ++
        packageName ++ "\"")

/-- A struct found in the project: its name, its record type, and its
rendered declaration position. -/
structure StrctFound where
  name : String
  record : RecordType
  position : String
deriving DecidableEq

/-- Model of getStrctsImplementingIface: keep the structs implementing
the interface, judged against the pointer method set (the source wraps
each candidate in types.NewPointer before types.Implements; the path
parameter is accepted and unused, as in the source). -/
def getStrctsImplementingIface (path : String) (graph : List RecordType)
    (strcts : List StrctFound) (iface : FindInterfaceResult) : List StrctFound :=
  strcts.filter (fun strct => satisfies iface.iface strct.record graph)

/-- Observable outcome of one run of the query phase: process exit code,
result lines printed to standard output, and the diagnostic message, if
any. -/
structure RunOutcome where
  exitCode : Nat
  outputLines : List String
  errorMsg : Option String
deriving DecidableEq

/-- Model of the query phase of main, from the interface lookup to the
result printing: a lookup failure aborts with exit code 1, an empty
result list aborts with the no-implementations diagnostic and exit code
1, and otherwise one line per satisfying struct is printed. -/
def runQuery (path : String) (graph : List RecordType) (scope : List ScopeEntry)
    (strcts : List StrctFound) (packageName interfaceName : String) : RunOutcome :=
  match findInterface scope packageName interfaceName with
  | Except.error e => ⟨1, [], some ("error: find interfaces: " ++ e)⟩
  | Except.ok ifr =>
    let impls := getStrctsImplementingIface path graph strcts ifr
    if impls = [] then
      ⟨1, [], some ("error: no structs implement the interface \"" ++ interfaceName ++
        "\" defined in package \"" ++ packageName ++ "\"")⟩
    else
      ⟨0, impls.map (fun s => s.name ++ " " ++ s.position), none⟩

/-- C8: whenever the requested contract is found but no record type
satisfies it, the run ends with the informative no-implementations
diagnostic, prints no result lines, and exits with the non-zero status
1. -/
theorem no_implementations_error {path : String} {graph : List RecordType}
    {scope : List ScopeEntry} {strcts : List StrctFound}
    {packageName interfaceName : String} {ifr : FindInterfaceResult}
    (hfind : findInterface scope packageName interfaceName = Except.ok ifr)
    (hempty : getStrctsImplementingIface path graph strcts ifr = []) :
    runQuery path graph scope strcts packageName interfaceName =
      ⟨1, [], some ("error: no structs implement the interface \"" ++ interfaceName ++
        "\" defined in package \"" ++ packageName ++ "\"")⟩ := by
  simp only [runQuery, hfind, hempty]
  rfl

/-- Scope entry declaring the Fetcher interface. -/
def fetcherScope : List ScopeEntry :=
  [⟨"Fetcher", UnderlyingType.interfaceType fetcherContract⟩]

/-- A found struct whose method set does not satisfy the Fetcher
contract. -/
def cacheFetcherFound : StrctFound :=
  ⟨"cacheFetcher", cacheFetcher, "cache.go:3:6"⟩

/-- Witness for C8: with the Fetcher contract declared and only the
non-conforming cacheFetcher present, the run exits 1 with the
no-implementations diagnostic and no output lines. -/
theorem no_implementations_error_witness :
    runQuery "." [] fetcherScope [cacheFetcherFound] "fetcher" "Fetcher" =
      ⟨1, [], some ("error: no structs implement the interface \"" ++ "Fetcher" ++
        "\" defined in package \"" ++ "fetcher" ++ "\"")⟩ :=
  @no_implementations_error "." [] fetcherScope [cacheFetcherFound] "fetcher" "Fetcher"
    ⟨fetcherContract, "Fetcher"⟩ rfl rfl

/-- C10: when the requested name is present in the resolved package's
scope but does not denote an interface type, findInterface fails with
exactly the lookup error an absent name produces, and the query run
prints no result lines and exits with the non-zero status 1. -/
theorem non_interface_name_fails {path : String} {graph : List RecordType}
    {scope : List ScopeEntry} {strcts : List StrctFound}
    {packageName interfaceName : String} {e : ScopeEntry}
    (hfound : scope.find? (fun s => decide (s.name = interfaceName)) = some e)
    (hnotiface : ∀ c : ContractType, e.underlying ≠ UnderlyingType.interfaceType c) :
    findInterface scope packageName interfaceName =
      Except.error ("no such interface \"" ++ interfaceName ++ "\" in package \"" ++
        packageName ++ "\"") ∧
    findInterface ([] : List ScopeEntry) packageName interfaceName =
      Except.error ("no such interface \"" ++ interfaceName ++ "\" in package \"" ++
        packageName ++ "\"") ∧
    runQuery path graph scope strcts packageName interfaceName =
      ⟨1, [], some ("error: find interfaces: " ++
        ("no such interface \"" ++ interfaceName ++ "\" in package \"" ++
          packageName ++ "\""))⟩ := by
  have herr : findInterface scope packageName interfaceName =
      Except.error ("no such interface \"" ++ interfaceName ++ "\" in package \"" ++
        packageName ++ "\"") := by
    cases hu : e.underlying with
    | interfaceType c => exact absurd hu (hnotiface c)
    | structType r => simp only [findInterface, hfound, hu]
    | otherType => simp only [findInterface, hfound, hu]
  refine ⟨herr, rfl, ?_⟩
  simp only [runQuery, herr]

/-- Scope in which the name Fetcher denotes a struct type, not an
interface. -/
def structNamedFetcherScope : List ScopeEntry :=
  [⟨"Fetcher", UnderlyingType.structType cacheFetcher⟩]

/-- Witness for C10: looking up the name Fetcher when it denotes a
struct yields the same lookup failure as an absent name, and the run
exits 1 with no output. -/
theorem non_interface_name_fails_witness :
    findInterface structNamedFetcherScope "fetcher" "Fetcher" =
      Except.error ("no such interface \"" ++ "Fetcher" ++ "\" in package \"" ++
        "fetcher" ++ "\"") ∧
    findInterface ([] : List ScopeEntry) "fetcher" "Fetcher" =
      Except.error ("no such interface \"" ++ "Fetcher" ++ "\" in package \"" ++
        "fetcher" ++ "\"") ∧
    runQuery "." [] structNamedFetcherScope [] "fetcher" "Fetcher" =
      ⟨1, [], some ("error: find interfaces: " ++
        ("no such interface \"" ++ "Fetcher" ++ "\" in package \"" ++
          "fetcher" ++ "\""))⟩ :=
  @non_interface_name_fails "." [] structNamedFetcherScope [] "fetcher" "Fetcher"
    ⟨"Fetcher", UnderlyingType.structType cacheFetcher⟩
    (by decide) (fun c h => by cases h)

/-- State of the discovery pipeline's shutdown, embedded from main: the
struct declarations the parse goroutines still have to hand over on the
channel, the declaration the record-sink goroutine has received but not
yet recorded, the record sink's aggregated list, whether main has closed
the channels, whether the interface sink has signalled its done-channel
(readIfacesCh), main's program counter through Wait/close, receive of
the done-signal, and the read of the aggregated structs, and the value
main observed when it read them. -/
structure PipelineState where
  pendingSends : List String
  holdStruct : Option String
  structsAgg : List String
  chClosed : Bool
  ifaceDone : Bool
  mainPC : Nat
  readStructs : Option (List String)
deriving DecidableEq

/-- Interleaving semantics of the pipeline shutdown; each constructor is
one atomic step of one goroutine, faithful to the source: recvStruct is
the record sink receiving from the unbuffered channel (which is what
unblocks the producer's send and lets writeWg.Wait return); recordStruct
is the sink recording the received declaration with first-seen-wins
dedup; mainWaitClose is main returning from writeWg.Wait and closing the
channels; ifaceSinkDone is the interface sink finishing its drain and
signalling readIfacesCh; mainRecvIfaceDone is main receiving that
signal — the only done-signal main waits for; mainReadStructs is main
reading the aggregated structs to print them. -/
inductive PipelineStep : PipelineState → PipelineState → Prop where
  | recvStruct (s : PipelineState) (d : String) (rest : List String) :
      s.pendingSends = d :: rest → s.holdStruct = none →
      PipelineStep s { s with pendingSends := rest, holdStruct := some d }
  | recordStruct (s : PipelineState) (d : String) :
      s.holdStruct = some d →
      PipelineStep s { s with holdStruct := none, structsAgg := if d ∈ s.structsAgg then s.structsAgg else s.structsAgg ++ [d] }
  | mainWaitClose (s : PipelineState) :
      s.mainPC = 0 → s.pendingSends = [] →
      PipelineStep s { s with mainPC := 1, chClosed := true }
  | ifaceSinkDone (s : PipelineState) :
      s.chClosed = true → s.ifaceDone = false →
      PipelineStep s { s with ifaceDone := true }
  | mainRecvIfaceDone (s : PipelineState) :
      s.mainPC = 1 → s.ifaceDone = true →
      PipelineStep s { s with mainPC := 2 }
  | mainReadStructs (s : PipelineState) :
      s.mainPC = 2 →
      PipelineStep s { s with mainPC := 3, readStructs := some s.structsAgg }

/-- Initial pipeline state: one extraction task is about to hand over
the struct declaration T, nothing is aggregated yet, main is before
writeWg.Wait. -/
def pipelineInit : PipelineState := ⟨["T"], none, [], false, false, 0, none⟩

/-- Reached racy state: main has read the aggregated structs and
observed the empty list while the record sink still holds the received
but unrecorded declaration T. -/
def pipelineRace : PipelineState := ⟨[], some "T", [], true, true, 3, some []⟩

/-- C9: the completion barrier is incomplete — only the interface sink
has a done-signal (readIfacesCh), so there is a reachable schedule in
which main reads the aggregated structs after every extraction task has
finished and after the interface sink's done-signal, yet before the
record sink has drained: the read observes the empty list while the
emitted declaration T is still held undrained by the record sink. -/
theorem graph_read_before_record_sink_drained :
    Relation.ReflTransGen PipelineStep pipelineInit pipelineRace ∧
    pipelineRace.readStructs = some [] ∧
    pipelineRace.holdStruct = some "T" := by
  refine ⟨?_, rfl, rfl⟩
  have t1 : PipelineStep pipelineInit ⟨[], some "T", [], false, false, 0, none⟩ :=
    PipelineStep.recvStruct pipelineInit "T" [] rfl rfl
  have t2 : PipelineStep ⟨[], some "T", [], false, false, 0, none⟩
      ⟨[], some "T", [], true, false, 1, none⟩ := by
    have h := PipelineStep.mainWaitClose ⟨[], some "T", [], false, false, 0, none⟩ rfl rfl
    exact h
  have t3 : PipelineStep ⟨[], some "T", [], true, false, 1, none⟩
      ⟨[], some "T", [], true, true, 1, none⟩ :=
    PipelineStep.ifaceSinkDone _ rfl rfl
  have t4 : PipelineStep ⟨[], some "T", [], true, true, 1, none⟩
      ⟨[], some "T", [], true, true, 2, none⟩ :=
    PipelineStep.mainRecvIfaceDone _ rfl rfl
  have t5 : PipelineStep ⟨[], some "T", [], true, true, 2, none⟩ pipelineRace :=
    PipelineStep.mainReadStructs _ rfl
  exact Relation.ReflTransGen.head t1 (Relation.ReflTransGen.head t2
    (Relation.ReflTransGen.head t3 (Relation.ReflTransGen.head t4
      (Relation.ReflTransGen.head t5 Relation.ReflTransGen.refl))))

end InterfaceInspector
